import Mathlib

/-!
Verification of the Research & Verification pipeline of the Better-Perplexity
repository against its natural-language specification.

The TypeScript sources are shallowly embedded as executable Lean definitions:
pure functions become Lean functions over `String`/`List`/`Nat`/`Rat`
(JavaScript numbers that only ever hold small exact values are modelled as
`ℚ`/`ℕ`/`ℤ`, written with the core constructor `mkRat` so that every
definition evaluates inside the kernel), fallible code returns
`Option`/`Except`, and the concurrent worker pool of the Retriever becomes an
explicit small-step transition relation.  External platform capabilities (the
WHATWG URL parser, `JSON.parse`, the search/fetch/extract/generation
capabilities, the wall clock) are either parameters of the embedded functions
or concrete models marked as such in their doc comments.  JavaScript string
primitives (`trim`, `toLowerCase`, `split`, `slice`) are embedded as character
list operations with the ASCII semantics the pipeline relies on.
-/

set_option maxRecDepth 8000

namespace BetterPerplexity

/-! ## Character and string utilities shared by several embedded functions -/

/-- Drops leading whitespace characters of a character list. -/
def dropWs : List Char → List Char
  | [] => []
  | c :: rest => if c.isWhitespace then dropWs rest else c :: rest

/-- Embedding of `String.prototype.trim`: drop whitespace at both ends. -/
def strTrim (s : String) : String :=
  String.mk ((dropWs (dropWs s.data.reverse).reverse))

/-- Embedding of `String.prototype.toLowerCase` for the ASCII text the
pipeline manipulates. -/
def strLower (s : String) : String :=
  String.mk (s.data.map Char.toLower)

/-- Embedding of `String.prototype.slice(0, n)`. -/
def strTake (s : String) (n : Nat) : String :=
  String.mk (s.data.take n)

/-- Splits a character list on (single) whitespace characters, producing the
pieces between them; consecutive separators produce empty pieces, which the
callers discard.  This models the JavaScript `split(/\s+/g)` composed with the
length filter that every caller applies. -/
def splitWsAux : List Char → List Char → List (List Char)
  | [], acc => [acc.reverse]
  | c :: rest, acc =>
    if c.isWhitespace then acc.reverse :: splitWsAux rest []
    else splitWsAux rest (c :: acc)

def splitWs (cs : List Char) : List (List Char) := splitWsAux cs []

/-- Collapses every maximal run of whitespace into a single space character,
modelling the JavaScript `replace(/\s+/g, " ")`.  The flag records whether the
previous character belonged to a whitespace run. -/
def collapseWsAux : Bool → List Char → List Char
  | _, [] => []
  | inRun, c :: rest =>
    if c.isWhitespace then
      if inRun then collapseWsAux true rest
      else ' ' :: collapseWsAux true rest
    else c :: collapseWsAux false rest

def collapseWs (cs : List Char) : List Char := collapseWsAux false cs

/-- Boolean test of whether `needle` is an initial segment of `hay`. -/
def leadsList : List Char → List Char → Bool
  | [], _ => true
  | _ :: _, [] => false
  | a :: as, b :: bs => a = b && leadsList as bs

/-- Boolean substring containment on character lists, modelling the JavaScript
`String.prototype.includes`. -/
def containsSeq (needle : List Char) : List Char → Bool
  | [] => needle.isEmpty
  | c :: rest => leadsList needle (c :: rest) || containsSeq needle rest

/-! ## Verifier (`apps/api/src/agents/verifier.ts`)

The verifier's scoring pipeline is deterministic and involves no generation
capability, so it embeds directly.  The JavaScript numbers it manipulates are
ratios of small integers and exact decimal roundings of those, so they are
modelled as `ℚ`. -/

/-- Embedding of `normalizeTokens`: lower-case, replace every character
outside `[a-z0-9]` and whitespace by a space, split on whitespace, and keep
only tokens of length at least 4. -/
def normalizeTokens (s : String) : List String :=
  let lowered := s.data.map Char.toLower
  let replaced := lowered.map fun c =>
    if ('a' ≤ c ∧ c ≤ 'z') ∨ ('0' ≤ c ∧ c ≤ '9') ∨ c.isWhitespace then c else ' '
  ((splitWs replaced).filter fun t => 4 ≤ t.length).map fun cs => String.mk cs

/-- Splits text at runs of two or more newline characters, the embedding of
`text.split(/\n{2,}/g)`.  The flag is `true` while consuming the remainder of
a separator run. -/
def splitParasAux : Bool → List Char → List Char → List (List Char)
  | _, [], acc => [acc.reverse]
  | true, c :: rest, _ =>
    if c = '\n' then splitParasAux true rest []
    else splitParasAux false rest [c]
  | false, '\n' :: '\n' :: rest, acc => acc.reverse :: splitParasAux true rest []
  | false, c :: rest, acc => splitParasAux false rest (c :: acc)

def splitParas (cs : List Char) : List (List Char) := splitParasAux false cs []

/-- Greedy merge of consecutive paragraphs into chunks of at most `maxLen`
characters; the embedding of the accumulation loop of `chunkText`.  A single
paragraph longer than `maxLen` becomes a chunk on its own (the source imposes
no hard cap on such a chunk). -/
def mergeParas (maxLen : Nat) : List String → String → List String
  | [], buf => if buf = "" then [] else [buf]
  | p :: ps, buf =>
    let next := if buf = "" then p else buf ++ "\n\n" ++ p
    if maxLen < next.length then
      (if buf = "" then [] else [buf]) ++ mergeParas maxLen ps p
    else
      mergeParas maxLen ps next

/-- Embedding of `chunkText`: split on blank-line boundaries, trim, drop empty
paragraphs, greedily merge into chunks of at most 900 characters, and keep at
most 40 chunks. -/
def chunkText (text : String) (maxLen : Nat := 900) : List String :=
  let paras := ((splitParas text.data).map fun cs => strTrim (String.mk cs)).filter
    fun p => p ≠ ""
  (mergeParas maxLen paras "").take 40

/-- Embedding of `overlapScore`.  `ct` is the JavaScript `Set` of claim tokens
(modelled as the list of distinct tokens), while `dt` is the plain token list
of the chunk, so repeated chunk tokens each contribute to `hit`.
`mkRat hit (Nat.max 8 ct.length)` is the exact value of the JavaScript
division `hit / Math.max(8, ct.size)`, and `min 1` is `Math.min(1, ·)`. -/
def overlapScore (claim chunk : String) : ℚ :=
  let ct := (normalizeTokens claim).dedup
  let dt := normalizeTokens chunk
  if ct.length = 0 ∨ dt.length = 0 then 0
  else
    let hit := (dt.filter fun w => w ∈ ct).length
    min 1 (mkRat hit (Nat.max 8 ct.length))

inductive ClaimSupportLabel where
  | supported
  | weak
  | unsupported
deriving DecidableEq, Repr

/-- Embedding of `labelFromScore`; `mkRat 3 4` is `0.75` and `mkRat 9 20` is
`0.45`. -/
def labelFromScore (score : ℚ) : ClaimSupportLabel :=
  if mkRat 3 4 ≤ score then ClaimSupportLabel.supported
  else if mkRat 9 20 ≤ score then ClaimSupportLabel.weak
  else ClaimSupportLabel.unsupported

/-- Embedding of `Number(x.toFixed(2))` for the nonnegative scores the
verifier produces: rounding to two decimal places, halves away from zero.
For `q = n/d` in lowest terms, `⌊(200n + d) / (2d)⌋ = ⌊100q + 1/2⌋ =
round(100q)`, so the definition is exactly `round(q·100)/100` written with
kernel-evaluable core operations. -/
def round2 (q : ℚ) : ℚ :=
  mkRat (Rat.floor (mkRat (200 * q.num + q.den) (2 * q.den))) 100

/-- Sanity bridge: `round2` agrees with Mathlib's `round`. -/
theorem round2_eq_round_div (q : ℚ) :
    round2 q = ((round (q * 100) : ℤ) : ℚ) / 100 := by
  have hd : (q.den : ℚ) ≠ 0 := by
    exact_mod_cast q.den_nz
  have hq : q * (q.den : ℚ) = (q.num : ℚ) := by
    nth_rewrite 1 [← Rat.num_div_den q]
    exact div_mul_cancel₀ _ hd
  have hval : (mkRat (200 * q.num + q.den) (2 * q.den) : ℚ) = q * 100 + 1/2 := by
    rw [Rat.mkRat_eq_div, div_eq_iff (by positivity : ((2 * q.den : ℕ) : ℚ) ≠ 0)]
    push_cast
    linear_combination (-200 : ℚ) * hq
  have hfloor : Rat.floor (mkRat (200 * q.num + q.den) (2 * q.den))
      = ⌊q * 100 + 1/2⌋ := by
    rw [← hval]; rfl
  rw [round2, hfloor, ← round_eq, Rat.mkRat_eq_div]
  norm_num

structure ClaimEvidence where
  sourceUrl : String
  snippet : String
deriving DecidableEq, Repr

/-- Embedding of the `ClaimRecord` wire type (`types/run.ts`).  The `id` field
is produced by the external `cuid2` id generator and carries no pipeline
content, so it is not modelled. -/
structure ClaimRecord where
  claim : String
  label : ClaimSupportLabel
  score : ℚ
  evidence : List ClaimEvidence
deriving DecidableEq, Repr

structure ScoredEvidence where
  sourceUrl : String
  snippet : String
  score : ℚ
deriving DecidableEq, Repr

/-- Embedding of the inner best-chunk loop of `verifyClaims`: fold over the
chunks of one source keeping the strictly best score, with the snippet
truncated to 280 characters at update time. -/
def bestChunkFor (claim : String) (chunks : List String) : String × ℚ :=
  chunks.foldl
    (fun best c =>
      if best.2 < overlapScore claim c then (strTake c 280, overlapScore claim c)
      else best)
    ("", 0)

/-- Per-source best evidence for one claim, in source order, keeping only
sources whose best score is positive. -/
def claimEvidenceScored (claim : String) (srcs : List (String × List String)) :
    List ScoredEvidence :=
  srcs.filterMap fun s =>
    if 0 < (bestChunkFor claim s.2).2 then
      some ⟨s.1, (bestChunkFor claim s.2).1, (bestChunkFor claim s.2).2⟩
    else none

/-- Descending stable sort of the scored evidence, the embedding of
`evidenceScored.sort((a, b) => b.score - a.score)` (JavaScript `sort` is a
stable sort, and the output of a stable sort is uniquely determined by the
comparator, so insertion sort realizes it exactly). -/
def claimSorted (claim : String) (srcs : List (String × List String)) :
    List ScoredEvidence :=
  (claimEvidenceScored claim srcs).insertionSort fun a b => b.score ≤ a.score

/-- The unrounded maximum that `verifyClaims` computes for one claim:
`top[0]?.score ?? 0` where `top` is the best three scored sources. -/
def claimMaxScore (claim : String) (srcs : List (String × List String)) : ℚ :=
  (((claimSorted claim srcs).take 3).head?.map ScoredEvidence.score).getD 0

/-- The record `verifyClaims` builds for one claim. -/
def scoreClaim (claim : String) (srcs : List (String × List String)) : ClaimRecord :=
  let top := (claimSorted claim srcs).take 3
  let maxScore := claimMaxScore claim srcs
  { claim := claim
    score := round2 maxScore
    label := labelFromScore maxScore
    evidence := top.map fun e => ⟨e.sourceUrl, e.snippet⟩ }

/-- Embedding of the `EvidenceSource` record of `agents/researcher.ts`. -/
structure EvidenceSource where
  url : String
  title : String
  domain : String
  excerpt : String
  text : String
  contentHash : String
deriving DecidableEq, Repr

/-- The chunked view of the sources that `verifyClaims` precomputes. -/
def sourceChunksOf (sources : List EvidenceSource) : List (String × List String) :=
  sources.map fun s => (s.url, chunkText s.text)

/-- Embedding of `verifyClaims`. -/
def verifyClaims (claims : List String) (sources : List EvidenceSource) :
    List ClaimRecord :=
  claims.map fun claim => scoreClaim claim (sourceChunksOf sources)

/-! ## Retriever (`agents/researcher.ts`)

Phase A (candidate selection) is sequential and embeds as a pure function.
Phase B (the bounded worker pool) is nondeterministic — workers interleave at
`await` points and the wall clock advances concurrently — so it is embedded as
a small-step transition relation over an explicit state.  The external
capabilities (`webSearch`, `fetchHtml`, `extractReadable`) and the platform
URL parser are parameters, collected in `RetrieverEnv`. -/

structure SearchResult where
  title : String
  link : String
  snippet : String
deriving DecidableEq, Repr

structure SelectedUrl where
  url : String
  reason : String
deriving DecidableEq, Repr

/-- Embedding of the `FetchResult` record of `services/fetch.ts`. -/
structure FetchResult where
  url : String
  status : Nat
  contentType : String
  html : String
deriving DecidableEq, Repr

/-- Embedding of the `ExtractedDoc` record of `services/extract.ts`. -/
structure ExtractedDoc where
  title : String
  text : String
  excerpt : String
  contentHash : String
deriving DecidableEq, Repr

/-- Embedding of the `TraceEvent` union of `types/run.ts`. -/
inductive TraceEvent where
  | planner (intents : List String)
  | search (query : String) (results : Nat)
  | fetch (url : String) (status : Nat)
  | select (selected : List SelectedUrl)
  | timing (ms : Nat)
deriving DecidableEq, Repr

/-- Embedding of the `ResearchOptions` record. -/
structure ResearchOptions where
  budgetMs : Nat
  perIntentUrls : Nat
  concurrency : Nat
  maxSources : Nat
  minSources : Nat
deriving DecidableEq, Repr

/-- External capabilities used by the Retriever.  `webSearch` stands for the
search capability (its internal caching and failure modes are outside the
core), `fetchHtml` for the never-throwing fetch capability, `extractReadable`
for readable-text extraction (`Option.none` models a raised extraction error),
and `domainOf` for `new URL(url).hostname` with a leading `www.` stripped
(`Option.none` models an invalid URL, on which `new URL` throws). -/
structure RetrieverEnv where
  webSearch : String → Nat → List SearchResult
  fetchHtml : String → FetchResult
  extractReadable : String → String → Option ExtractedDoc
  domainOf : String → Option String

/-- Modelled from the spec: the platform URL parser used by `domainOf`
(`new URL(url).hostname.replace(/^www\./, "")`), for the `scheme://host/path`
URL shapes exercised here.  It finds the `://` separator, takes the host part
up to the first `/`, `:`, `?` or `#`, rejects empty hosts, and strips one
leading `www.`. -/
def findHost : List Char → Option (List Char)
  | ':' :: '/' :: '/' :: rest => some rest
  | _ :: rest => findHost rest
  | [] => none

/-- Modelled from the spec: hostname extraction and `www.` stripping on the
characters following `://`, see `findHost` above for the separator search. -/
def domainOfModel (url : String) : Option String :=
  match findHost url.data with
  | none => none
  | some rest =>
    let host := rest.takeWhile fun c => c ≠ '/' ∧ c ≠ ':' ∧ c ≠ '?' ∧ c ≠ '#'
    if host = [] then none
    else
      match host with
      | 'w' :: 'w' :: 'w' :: '.' :: tail => some (String.mk tail)
      | h => some (String.mk h)

/-- Embedding of the selection loop of `selectUrls`: `seen` is the set of
domains already chosen in this round, `acc` the selections so far (reversed).
The cap is checked only after a push (`if (selected.length >= max) break`). -/
def selectUrlsAux (domainOf : String → Option String) (mx : Nat) :
    List SearchResult → List String → List SelectedUrl → List SelectedUrl
  | [], _, acc => acc.reverse
  | r :: rest, seen, acc =>
    match domainOf r.link with
    | none => selectUrlsAux domainOf mx rest seen acc
    | some domain =>
      if domain ∈ seen then selectUrlsAux domainOf mx rest seen acc
      else if r.snippet.length < 30 then selectUrlsAux domainOf mx rest seen acc
      else
        let acc2 := ⟨r.link, "Top-ranked unique domain with informative snippet."⟩ :: acc
        if mx ≤ acc2.length then acc2.reverse
        else selectUrlsAux domainOf mx rest (domain :: seen) acc2

/-- Embedding of `selectUrls`. -/
def selectUrls (domainOf : String → Option String) (results : List SearchResult)
    (mx : Nat) : List SelectedUrl :=
  selectUrlsAux domainOf mx results [] []

/-- Embedding of the sequential candidate-selection loop of `research`
(phase A): per intent, search, record `search` and `select` trace events, and
accumulate the selected fetch tasks. -/
def phaseA (env : RetrieverEnv) (intents : List String) (opts : ResearchOptions) :
    List TraceEvent × List SelectedUrl :=
  intents.foldl
    (fun acc q =>
      let results := env.webSearch q 6
      let selected := selectUrls env.domainOf results opts.perIntentUrls
      (acc.1 ++ [TraceEvent.search q results.length, TraceEvent.select selected],
        acc.2 ++ selected))
    ([], [])

/-- Embedding of `enoughEvidence`: the sufficiency predicate checked by each
worker before taking a task. -/
def enoughEvidence (opts : ResearchOptions) (sources : List EvidenceSource) : Prop :=
  opts.maxSources ≤ sources.length ∨
    (opts.minSources ≤ sources.length ∧
      2500 ≤ sources.foldl (fun a s => a + s.text.length) 0)

instance (opts : ResearchOptions) (sources : List EvidenceSource) :
    Decidable (enoughEvidence opts sources) := by
  unfold enoughEvidence; infer_instance

/-- Embedding of the per-task body of the worker loop after the post-fetch
deadline check: the skip conditions on status, content type, body, extraction
and text length, producing the evidence the task appends (`Option.none` when
the task is skipped). -/
def processTask (env : RetrieverEnv) (url : String) : Option EvidenceSource :=
  let page := env.fetchHtml url
  if page.status < 200 ∨ 300 ≤ page.status then none
  else if ¬ containsSeq "text/html".data (strLower page.contentType).data then none
  else if page.html = "" then none
  else
    match env.extractReadable page.html url with
    | none => none
    | some doc =>
      if doc.text.length < 300 then none
      else
        match env.domainOf url with
        | none => none
        | some dom =>
          some ⟨url, doc.title, dom, doc.excerpt, doc.text, doc.contentHash⟩

/-- State of the phase-B worker pool: the wall clock (ms since `start`), the
shared next-task index, the URLs currently being fetched by some worker, the
shared evidence collection, and the trace. -/
structure RState where
  time : Nat
  idx : Nat
  inFlight : List String
  sources : List EvidenceSource
  trace : List TraceEvent
deriving DecidableEq, Repr

/-- Small-step transition relation of the phase-B worker pool.  `tick` is the
wall clock advancing; `take` is a worker passing both loop guards (deadline
not yet passed, sufficiency not reached, tasks remaining) and starting the
fetch of the next task; `completeLate` is a fetch returning after the
deadline, where the mid-task check `if (nowMs() > deadline) return` discards
the page after recording the `fetch` trace event; `completeOk` is a fetch
returning on or before the deadline, whose evidence (when the skip conditions
pass) is appended to the shared collection — note that sufficiency is not
re-checked here.  The relation over-approximates the JavaScript event-loop
interleavings; every property proved for all transitions therefore holds for
every actual schedule. -/
inductive RStep (env : RetrieverEnv) (opts : ResearchOptions)
    (tasks : List SelectedUrl) : RState → RState → Prop
  | tick (s : RState) :
      RStep env opts tasks s ⟨s.time + 1, s.idx, s.inFlight, s.sources, s.trace⟩
  | take (s : RState) (h1 : s.idx < tasks.length) (h2 : s.time ≤ opts.budgetMs)
      (h3 : ¬ enoughEvidence opts s.sources) :
      RStep env opts tasks s
        ⟨s.time, s.idx + 1, (tasks.get ⟨s.idx, h1⟩).url :: s.inFlight,
          s.sources, s.trace⟩
  | completeLate (s : RState) (u : String) (h1 : u ∈ s.inFlight)
      (h2 : opts.budgetMs < s.time) :
      RStep env opts tasks s
        ⟨s.time, s.idx, s.inFlight.erase u, s.sources,
          s.trace ++ [TraceEvent.fetch u (env.fetchHtml u).status]⟩
  | completeOk (s : RState) (u : String) (h1 : u ∈ s.inFlight)
      (h2 : s.time ≤ opts.budgetMs) :
      RStep env opts tasks s
        ⟨s.time, s.idx, s.inFlight.erase u,
          s.sources ++ (processTask env u).toList,
          s.trace ++ [TraceEvent.fetch u (env.fetchHtml u).status]⟩

/-- Initial phase-B state: clock at `start` (0), no task taken, the phase-A
trace already recorded. -/
def initRState (trace0 : List TraceEvent) : RState := ⟨0, 0, [], [], trace0⟩

/-- A phase-B state reachable by some interleaving of the worker pool on the
tasks selected in phase A. -/
def ResearchReachable (env : RetrieverEnv) (intents : List String)
    (opts : ResearchOptions) (s : RState) : Prop :=
  Relation.ReflTransGen (RStep env opts (phaseA env intents opts).2)
    (initRState (phaseA env intents opts).1) s

/-- Embedding of the post-processing filter of `research`: drop every source
whose content hash was already seen. -/
def dedupeByHashAux : List String → List EvidenceSource → List EvidenceSource
  | _, [] => []
  | seen, x :: rest =>
    if x.contentHash ∈ seen then dedupeByHashAux seen rest
    else x :: dedupeByHashAux (x.contentHash :: seen) rest

def dedupeByHash (sources : List EvidenceSource) : List EvidenceSource :=
  dedupeByHashAux [] sources

/-- Embedding of the final lines of `research`: deduplicate the collected
evidence by content hash keeping first occurrences, and truncate to
`maxSources`.  (The `timing` trace event appended alongside carries
`nowMs() - start`, i.e. the final clock value.) -/
def researchSources (collected : List EvidenceSource) (maxSources : Nat) :
    List EvidenceSource :=
  (dedupeByHash collected).take maxSources

/-- The full result of `research` from a final phase-B state. -/
def researchFinish (s : RState) (opts : ResearchOptions) :
    List TraceEvent × List EvidenceSource :=
  (s.trace ++ [TraceEvent.timing s.time], researchSources s.sources opts.maxSources)

/-! ## JSON values and the model of the platform `JSON.parse`

The generation providers (`llm/ollama.ts`, `llm/openrouter.ts`) post-process
JSON-mode responses with `safeJsonParse`, which calls the platform
`JSON.parse`.  `JsonVal` is the shape of parsed JSON values; `jsonParse` is a
concrete model of `JSON.parse` as a standard recursive-descent JSON acceptor
(numbers are kept as lexemes and their grammar is modelled loosely — the
claims under verification never hinge on number syntax). -/

inductive JsonVal where
  | null
  | bool (b : Bool)
  | num (lexeme : String)
  | str (s : String)
  | arr (items : List JsonVal)
  | obj (fields : List (String × JsonVal))

/-- JSON insignificant whitespace. -/
def skipJsonWs : List Char → List Char
  | [] => []
  | c :: rest =>
    if c = ' ' ∨ c = '\t' ∨ c = '\n' ∨ c = '\r' then skipJsonWs rest else c :: rest

def hexVal (c : Char) : Option Nat :=
  if '0' ≤ c ∧ c ≤ '9' then some (c.toNat - '0'.toNat)
  else if 'a' ≤ c ∧ c ≤ 'f' then some (c.toNat - 'a'.toNat + 10)
  else if 'A' ≤ c ∧ c ≤ 'F' then some (c.toNat - 'A'.toNat + 10)
  else none

/-- Body of a JSON string after the opening quote, with the usual escapes. -/
def parseStringBody : List Char → List Char → Option (String × List Char)
  | [], _ => none
  | '"' :: rest, acc => some (String.mk acc.reverse, rest)
  | '\\' :: 'u' :: h1 :: h2 :: h3 :: h4 :: rest, acc =>
    (match hexVal h1, hexVal h2, hexVal h3, hexVal h4 with
     | some a, some b, some c, some d =>
       parseStringBody rest (Char.ofNat (((a * 16 + b) * 16 + c) * 16 + d) :: acc)
     | _, _, _, _ => none)
  | '\\' :: e :: rest, acc =>
    if e = '"' ∨ e = '\\' ∨ e = '/' then parseStringBody rest (e :: acc)
    else if e = 'n' then parseStringBody rest ('\n' :: acc)
    else if e = 't' then parseStringBody rest ('\t' :: acc)
    else if e = 'r' then parseStringBody rest ('\r' :: acc)
    else if e = 'b' then parseStringBody rest (Char.ofNat 8 :: acc)
    else if e = 'f' then parseStringBody rest (Char.ofNat 12 :: acc)
    else none
  | c :: rest, acc =>
    if c.toNat < 32 then none else parseStringBody rest (c :: acc)

def takeDigits : List Char → List Char × List Char
  | [] => ([], [])
  | c :: rest =>
    if c.isDigit then
      let p := takeDigits rest
      (c :: p.1, p.2)
    else ([], c :: rest)

def parseFrac : List Char → Option (List Char × List Char)
  | '.' :: rest =>
    (match takeDigits rest with
     | ([], _) => none
     | (ds, r) => some ('.' :: ds, r))
  | cs => some ([], cs)

def parseExp : List Char → Option (List Char × List Char)
  | [] => some ([], [])
  | c :: rest =>
    if c = 'e' ∨ c = 'E' then
      let sr : List Char × List Char :=
        match rest with
        | '+' :: r => (['+'], r)
        | '-' :: r => (['-'], r)
        | r => ([], r)
      match takeDigits sr.2 with
      | ([], _) => none
      | (ds, r) => some (c :: (sr.1 ++ ds), r)
    else some ([], c :: rest)

/-- JSON number lexeme. -/
def parseNum (cs : List Char) : Option (String × List Char) :=
  let nr : List Char × List Char :=
    match cs with
    | '-' :: rest => (['-'], rest)
    | _ => ([], cs)
  match takeDigits nr.2 with
  | ([], _) => none
  | (ds, cs2) =>
    match parseFrac cs2 with
    | none => none
    | some (fr, cs3) =>
      match parseExp cs3 with
      | none => none
      | some (ex, cs4) => some (String.mk (nr.1 ++ ds ++ fr ++ ex), cs4)

/-- Mode of the fuel-indexed JSON parser: a value, the items of an array, or
the members of an object. -/
inductive PMode where
  | val
  | arrItems (acc : List JsonVal)
  | objItems (acc : List (String × JsonVal))

/-- Fuel-indexed recursive-descent JSON parser. -/
def parseJ : Nat → PMode → List Char → Option (JsonVal × List Char)
  | 0, _, _ => none
  | fuel + 1, PMode.val, cs =>
    (match skipJsonWs cs with
     | 'n' :: 'u' :: 'l' :: 'l' :: rest => some (JsonVal.null, rest)
     | 't' :: 'r' :: 'u' :: 'e' :: rest => some (JsonVal.bool true, rest)
     | 'f' :: 'a' :: 'l' :: 's' :: 'e' :: rest => some (JsonVal.bool false, rest)
     | '"' :: rest => (parseStringBody rest []).map fun p => (JsonVal.str p.1, p.2)
     | '[' :: rest =>
       (match skipJsonWs rest with
        | ']' :: r2 => some (JsonVal.arr [], r2)
        | r2 => parseJ fuel (PMode.arrItems []) r2)
     | '{' :: rest =>
       (match skipJsonWs rest with
        | '}' :: r2 => some (JsonVal.obj [], r2)
        | r2 => parseJ fuel (PMode.objItems []) r2)
     | rest => (parseNum rest).map fun p => (JsonVal.num p.1, p.2))
  | fuel + 1, PMode.arrItems acc, cs =>
    (match parseJ fuel PMode.val cs with
     | none => none
     | some (v, rest) =>
       match skipJsonWs rest with
       | ',' :: r2 => parseJ fuel (PMode.arrItems (v :: acc)) r2
       | ']' :: r2 => some (JsonVal.arr (v :: acc).reverse, r2)
       | _ => none)
  | fuel + 1, PMode.objItems acc, cs =>
    (match skipJsonWs cs with
     | '"' :: rest =>
       (match parseStringBody rest [] with
        | none => none
        | some (k, r1) =>
          match skipJsonWs r1 with
          | ':' :: r2 =>
            (match parseJ fuel PMode.val r2 with
             | none => none
             | some (v, r3) =>
               match skipJsonWs r3 with
               | ',' :: r4 => parseJ fuel (PMode.objItems ((k, v) :: acc)) r4
               | '}' :: r4 => some (JsonVal.obj ((k, v) :: acc).reverse, r4)
               | _ => none)
          | _ => none)
     | _ => none)

/-- Modelled from the spec: the platform `JSON.parse` over the whole input —
a parsed value followed only by whitespace; anything else is a parse error
(a raised `SyntaxError`, modelled as `Option.none`). -/
def jsonParse (s : String) : Option JsonVal :=
  match parseJ (2 * s.length + 2) PMode.val s.data with
  | some (v, rest) => if skipJsonWs rest = [] then some v else none
  | none => none

/-! ## `safeJsonParse` (`llm/ollama.ts` and `llm/openrouter.ts`, identical) -/

/-- First index of `c` in `s`, or `-1`; the embedding of
`String.prototype.indexOf`. -/
def firstIdxOf (s : String) (c : Char) : Int :=
  match s.data.findIdx? (fun x => x = c) with
  | some i => (i : Int)
  | none => -1

/-- Last index of `c` in `s`, or `-1`; the embedding of
`String.prototype.lastIndexOf`. -/
def lastIdxOf (s : String) (c : Char) : Int :=
  match s.data.reverse.findIdx? (fun x => x = c) with
  | some i => ((s.data.length - 1 - i : Nat) : Int)
  | none => -1

/-- Embedding of `t.slice(i, j)` for the in-range indices used here. -/
def sliceChars (s : String) (i j : Int) : String :=
  String.mk ((s.data.drop i.toNat).take (j.toNat - i.toNat))

inductive ParseErr where
  | noJson
  | malformed
  | syntaxErr
deriving DecidableEq, Repr

/-- Embedding of the fallback extraction inside `safeJsonParse`: the substring
from the first `{` or `[` (whichever comes first) to the last `}` or `]`,
with the code's two explicit error paths.  `Math.min`/`Math.max` on the
JavaScript `-1`-convention indices are written as conditionals. -/
def bracketSlice (t : String) : Except ParseErr String :=
  let firstObj := firstIdxOf t '{'
  let firstArr := firstIdxOf t '['
  let start :=
    if firstObj = -1 then firstArr
    else if firstArr = -1 then firstObj
    else if firstObj ≤ firstArr then firstObj else firstArr
  if start = -1 then Except.error ParseErr.noJson
  else
    let endObj := lastIdxOf t '}'
    let endArr := lastIdxOf t ']'
    let endIdx := if endObj ≤ endArr then endArr else endObj
    if endIdx ≤ start then Except.error ParseErr.malformed
    else Except.ok (sliceChars t start (endIdx + 1))

/-- Embedding of `safeJsonParse`: parse the trimmed text; on failure extract
the bracket slice and parse that; `syntaxErr` models the uncaught
`SyntaxError` of the second `JSON.parse`. -/
def safeJsonParse (text : String) : Except ParseErr JsonVal :=
  let t := strTrim text
  match jsonParse t with
  | some v => Except.ok v
  | none =>
    match bracketSlice t with
    | Except.error e => Except.error e
    | Except.ok slice =>
      match jsonParse slice with
      | some v => Except.ok v
      | none => Except.error ParseErr.syntaxErr

/-- Specification-side notion for claim C8: scan for bracket-balanced
segments.  `balPre` follows a segment from just after an opening bracket with
`stack` the expected closing brackets, returning the segment length when the
stack empties. -/
def balPre : List Char → List Char → Nat → Option Nat
  | _, [], _ => none
  | stack, c :: rest, n =>
    if c = '{' then balPre ('}' :: stack) rest (n + 1)
    else if c = '[' then balPre (']' :: stack) rest (n + 1)
    else if c = '}' ∨ c = ']' then
      match stack with
      | [] => none
      | top :: s2 =>
        if top = c then
          (if s2 = [] then some (n + 1) else balPre s2 rest (n + 1))
        else none
    else balPre stack rest (n + 1)

/-- Specification-side notion for claim C8: the first balanced `{...}` or
`[...]` substring of the text (earliest start, then earliest end). -/
def firstBalancedAux : List Char → Option String
  | [] => none
  | c :: rest =>
    if c = '{' then
      match balPre ['}'] rest 1 with
      | some n => some (String.mk ((c :: rest).take n))
      | none => firstBalancedAux rest
    else if c = '[' then
      match balPre [']'] rest 1 with
      | some n => some (String.mk ((c :: rest).take n))
      | none => firstBalancedAux rest
    else firstBalancedAux rest

def firstBalanced (t : String) : Option String := firstBalancedAux t.data

/-! ## Planner (`agents/planner.ts`)

The generation call inside `planQuery` is external; its outcome is a
parameter (`Option.none` models a failed or timed-out call, or one whose text
admitted no JSON extraction; `some j` a call whose JSON-mode payload parsed to
`j`).  The zod `PlanSchema` validation is embedded by `parsePlan`. -/

inductive TimeSensitivity where
  | none
  | recent
  | current
deriving DecidableEq, Repr

inductive RawIntent where
  | plain (s : String)
  | withQuery (query : String) (rationale : Option String)
deriving DecidableEq, Repr

structure RawPlan where
  intents : List RawIntent
  must_include : List String
  time_sensitivity : TimeSensitivity
deriving DecidableEq, Repr

structure Plan where
  intents : List String
  must_include : List String
  time_sensitivity : TimeSensitivity
deriving DecidableEq, Repr

def lookupField (fields : List (String × JsonVal)) (k : String) : Option JsonVal :=
  match fields.find? (fun f => f.1 = k) with
  | some f => some f.2
  | none => none

/-- Embedding of the zod `IntentSchema`: a string of length at least 3, or an
object with a `query` string of length at least 3 and an optional string
`rationale`. -/
def parseIntent : JsonVal → Option RawIntent
  | JsonVal.str s => if 3 ≤ s.length then some (RawIntent.plain s) else none
  | JsonVal.obj fields =>
    (match lookupField fields "query" with
     | some (JsonVal.str q) =>
       if 3 ≤ q.length then
         match lookupField fields "rationale" with
         | some (JsonVal.str r) => some (RawIntent.withQuery q (some r))
         | some _ => none
         | none => some (RawIntent.withQuery q Option.none)
       else none
     | _ => none)
  | _ => none

def parseIntents : List JsonVal → Option (List RawIntent)
  | [] => some []
  | x :: rest =>
    match parseIntent x, parseIntents rest with
    | some i, some is => some (i :: is)
    | _, _ => none

def parseStringArray : List JsonVal → Option (List String)
  | [] => some []
  | JsonVal.str s :: rest => (parseStringArray rest).map fun ys => s :: ys
  | _ => none

def parseTimeSensitivity : JsonVal → Option TimeSensitivity
  | JsonVal.str s =>
    if s = "none" then some TimeSensitivity.none
    else if s = "recent" then some TimeSensitivity.recent
    else if s = "current" then some TimeSensitivity.current
    else none
  | _ => none

/-- Embedding of the zod `PlanSchema.parse`: 2–6 intents, `must_include` an
array of strings defaulting to `[]` when absent, `time_sensitivity` one of
the three enum values defaulting to `"none"` when absent; any other shape
raises (modelled as `Option.none`). -/
def parsePlan (j : JsonVal) : Option RawPlan :=
  match j with
  | JsonVal.obj fields =>
    (match lookupField fields "intents" with
     | some (JsonVal.arr xs) =>
       (match parseIntents xs with
        | none => none
        | some intents =>
          if 2 ≤ intents.length ∧ intents.length ≤ 6 then
            let mi : Option (List String) :=
              match lookupField fields "must_include" with
              | Option.none => some []
              | some (JsonVal.arr ys) => parseStringArray ys
              | some _ => none
            match mi with
            | none => none
            | some must_include =>
              let ts : Option TimeSensitivity :=
                match lookupField fields "time_sensitivity" with
                | Option.none => some TimeSensitivity.none
                | some v => parseTimeSensitivity v
              match ts with
              | none => none
              | some t => some ⟨intents, must_include, t⟩
          else none
        )
     | _ => none)
  | _ => none

def intentQuery : RawIntent → String
  | RawIntent.plain s => s
  | RawIntent.withQuery q _ => q

/-- Embedding of `normalizePlan`. -/
def normalizePlan (raw : RawPlan) : Plan :=
  ⟨raw.intents.map intentQuery, raw.must_include, raw.time_sensitivity⟩

/-- Embedding of the `catch` branch of `planQuery`: the deterministic
fallback plan built from the trimmed question (`.slice(0, 3)` is the `take 3`
on the three-element array). -/
def fallbackPlan (userQuestion : String) : Plan :=
  let q := strTrim userQuestion
  ⟨[q, q ++ " primary source", q ++ " overview"].take 3, [], TimeSensitivity.none⟩

/-- Embedding of `planQuery`.  A failed generation call or a payload rejected
by `PlanSchema.parse` takes the fallback branch; a validated payload is
normalized.  The function is total: `planQuery` never raises. -/
def planQuery (genOutcome : Option JsonVal) (userQuestion : String) : Plan :=
  match genOutcome with
  | Option.none => fallbackPlan userQuestion
  | some j =>
    match parsePlan j with
    | Option.none => fallbackPlan userQuestion
    | some raw => normalizePlan raw

/-! ## Orchestrator (`routes/chat.ts`)

Only the pipeline-relevant skeleton of `chatHandler` is embedded: artifact
cache lookup and fill, planning, the (up to two) retrieval passes, claim
verification and the cached artifact.  SSE transport, persistence and the
generation of the answer text are external; the answer generator is a
parameter.  Retrieval invocations are made observable by returning the list
of intent lists passed to `research` — the cache-hit branch performs none. -/

inductive Mode where
  | normal
  | reliability
deriving DecidableEq, Repr

def modeStr : Mode → String
  | Mode.normal => "normal"
  | Mode.reliability => "reliability"

/-- Embedding of the loop of `mergeSourcesByHash` over `[...a, ...b]`; the
cap is checked after each push. -/
def mergeGo (cap : Nat) : List EvidenceSource → List String → List EvidenceSource →
    List EvidenceSource
  | [], _, out => out.reverse
  | x :: rest, seen, out =>
    if x.contentHash ∈ seen then mergeGo cap rest seen out
    else
      let out2 := x :: out
      if cap ≤ out2.length then out2.reverse
      else mergeGo cap rest (x.contentHash :: seen) out2

/-- Embedding of `mergeSourcesByHash`. -/
def mergeSourcesByHash (a b : List EvidenceSource) (cap : Nat) : List EvidenceSource :=
  mergeGo cap (a ++ b) [] []

/-- Embedding of `requiredSources` (`body.mode === "reliability" ? 3 : 2`). -/
def requiredSources : Mode → Nat
  | Mode.reliability => 3
  | Mode.normal => 2

structure ResearchRes where
  trace : List TraceEvent
  sources : List EvidenceSource

/-- Embedding of the retrieval sequencing of `chatHandler`: first pass on the
plan's intents; in reliability mode with fewer than `requiredSources` results,
one widened second pass with the two fixed query variants, merged by content
hash and capped at 6.  The first component lists the intent lists passed to
`research`. -/
def orchestrateSources (mode : Mode) (question : String) (intents : List String)
    (research : List String → ResearchRes) :
    List (List String) × List TraceEvent × List EvidenceSource :=
  let r1 := research intents
  if mode = Mode.reliability ∧ r1.sources.length < requiredSources mode then
    let extraIntents := intents ++
      [question ++ " definition", question ++ " authoritative source"]
    let r2 := research extraIntents
    ([intents, extraIntents], r1.trace ++ r2.trace,
      mergeSourcesByHash r1.sources r2.sources 6)
  else ([intents], r1.trace, r1.sources)

/-- Embedding of `normalizeQuestion`: trim, lower-case, collapse whitespace
runs to single spaces, truncate to 300 characters. -/
def normalizeQuestion (q : String) : String :=
  strTake (String.mk (collapseWs (strLower (strTrim q)).data)) 300

/-- Embedding of `artifactKey`. -/
def artifactKey (mode : Mode) (q : String) : String :=
  "artifact:v1:" ++ modeStr mode ++ ":" ++ normalizeQuestion q

/-- Specification-side notion for claim C9: the question normalization exactly
as the claim words it — lower-case, collapse whitespace runs, truncate to 300
characters (no trimming). -/
def specNormalizeQuestion (q : String) : String :=
  strTake (String.mk (collapseWs (strLower q).data)) 300

structure SourceMeta where
  url : String
  title : String
  domain : String
  excerpt : String
  contentHash : String
deriving DecidableEq, Repr

/-- Embedding of the `CachedArtifact` record.  The JSON round trip through
`JSON.stringify`/`JSON.parse` of the store is modelled as the identity on the
artifact value. -/
structure CachedArtifact where
  finalAnswer : String
  sources : List SourceMeta
  trace : List TraceEvent
  claims : List ClaimRecord
deriving DecidableEq, Repr

def projectSource (s : EvidenceSource) : SourceMeta :=
  ⟨s.url, s.title, s.domain, s.excerpt, s.contentHash⟩

structure CacheEntry where
  value : CachedArtifact
  expiresAt : Nat
deriving DecidableEq, Repr

/-- Embedding of the in-memory branch of `cacheGet` (`services/cache.ts`): an
entry is live while `now ≤ expiresAt` (`Date.now() > hit.expiresAt` expires
it; the eager deletion of an expired entry is observationally irrelevant and
not modelled). -/
def cacheGetMem (mem : List (String × CacheEntry)) (key : String) (now : Nat) :
    Option CachedArtifact :=
  match mem.find? (fun e => e.1 = key) with
  | Option.none => Option.none
  | some e => if e.2.expiresAt < now then Option.none else some e.2.value

/-- Embedding of the in-memory branch of `cacheSet`: overwrite under `key`
with expiry `now + ttlSeconds * 1000` (the new entry shadows any older one). -/
def cacheSetMem (mem : List (String × CacheEntry)) (key : String)
    (value : CachedArtifact) (ttlSeconds now : Nat) : List (String × CacheEntry) :=
  (key, ⟨value, now + ttlSeconds * 1000⟩) :: mem

/-- External dependencies of one `chatHandler` run: the planner generation
outcome, the retrieval function (closing over the research options), the
draft/final answer generation, and the claim strings the extraction
capability returned. -/
structure ChatDeps where
  planGen : Option JsonVal
  research : List String → ResearchRes
  genAnswer : Mode → String → List EvidenceSource → String
  claimStrings : List String

/-- Embedding of the cache-relevant skeleton of `chatHandler`: on a live
cache hit, replay the stored answer with no planning and no retrieval; on a
miss, run plan → retrieve (with the widened second pass) → verify (reliability
mode) → answer, and store the artifact for 2 hours.  The third component
lists the intent lists passed to `research` during the call. -/
def chatModel (deps : ChatDeps) (mem : List (String × CacheEntry)) (now : Nat)
    (mode : Mode) (question : String) :
    String × List (String × CacheEntry) × List (List String) :=
  let key := artifactKey mode question
  match cacheGetMem mem key now with
  | some art => (art.finalAnswer, mem, [])
  | Option.none =>
    let plan := planQuery deps.planGen question
    let r := orchestrateSources mode question plan.intents deps.research
    let trace := TraceEvent.planner plan.intents :: r.2.1
    let answer := deps.genAnswer mode question r.2.2
    let safeClaims := (deps.claimStrings.filter (fun c => c ≠ "")).take 4
    let verified :=
      if mode = Mode.reliability ∧ safeClaims ≠ [] then verifyClaims safeClaims r.2.2
      else []
    let artifact : CachedArtifact := ⟨answer, r.2.2.map projectSource, trace, verified⟩
    (answer, cacheSetMem mem key artifact (2 * 60 * 60) now, r.1)

/-! ## Claim C3 — planner fallback -/

/-- Claim C3, counterexample: at the non-empty question `"x "` with the
generation capability failing, the fallback intents are built from the
*trimmed* question (`"x"`), not from the question itself as the claim states:
the returned intents are `["x", "x primary source", "x overview"]`, not
`["x ", "x  primary source", "x  overview"]`. -/
theorem planQuery_fallback_cex :
    (planQuery Option.none "x ").intents ≠ ["x ", "x  primary source", "x  overview"] ∧
    (planQuery Option.none "x ").intents = ["x", "x primary source", "x overview"] := by
  exact ⟨by decide, by decide⟩

/-- Claim C3 (amended): `planQuery` is a total function (it never raises), and
whenever the generation outcome is a failure (`Option.none`) or a payload the
`PlanSchema` validation rejects, it returns exactly the deterministic fallback
plan built from the **trimmed** question: intents
`[q.trim, q.trim ++ " primary source", q.trim ++ " overview"]`, empty
`must_include`, and `time_sensitivity = "none"`. -/
theorem planQuery_fallback (genOutcome : Option JsonVal) (q : String)
    (h : genOutcome = Option.none ∨
      ∃ j, genOutcome = some j ∧ parsePlan j = Option.none) :
    planQuery genOutcome q =
      ⟨[strTrim q, strTrim q ++ " primary source", strTrim q ++ " overview"], [],
        TimeSensitivity.none⟩ := by
  rcases h with h | ⟨j, hj, hp⟩
  · subst h; rfl
  · subst hj
    simp only [planQuery, hp]
    rfl

/-- Claim C3, witness: the fallback at a concrete always-failing generation
outcome and question. -/
theorem planQuery_fallback_witness :
    planQuery Option.none "photosynthesis" =
      ⟨["photosynthesis", "photosynthesis primary source", "photosynthesis overview"],
        [], TimeSensitivity.none⟩ :=
  (planQuery_fallback Option.none "photosynthesis" (Or.inl rfl)).trans (by decide)

/-! ## Claim C4 — the verifier's overlap score -/

/-- Specification-side scoring formula exactly as claim C4 words it: the
intersection is taken over the **set of distinct chunk tokens**, so repeated
chunk tokens cannot increase the score. -/
def specOverlapScore (claim chunk : String) : ℚ :=
  let ctSet := (normalizeTokens claim).toFinset
  let dtSet := (normalizeTokens chunk).toFinset
  min 1 (mkRat ((dtSet ∩ ctSet).card) (Nat.max 8 ctSet.card))

/-- Claim C4, counterexample: for the claim `"word something"` and the chunk
`"word word word"`, the code scores `3/8` — each of the three occurrences of
`word` counts — while the claimed set-intersection formula gives `1/8`. -/
theorem overlapScore_cex :
    overlapScore "word something" "word word word" = mkRat 3 8 ∧
    specOverlapScore "word something" "word word word" = mkRat 1 8 ∧
    overlapScore "word something" "word word word" ≠
      specOverlapScore "word something" "word word word" := by
  exact ⟨by decide, by decide, by decide⟩

/-- Scoring formula as amended: occurrences of chunk tokens lying in the claim
token set are counted with multiplicity. -/
def specOccurrenceOverlap (claim chunk : String) : ℚ :=
  let ctSet := (normalizeTokens claim).toFinset
  let dt := normalizeTokens chunk
  if ctSet.card = 0 ∨ dt.length = 0 then 0
  else min 1 (mkRat (dt.countP fun w => w ∈ ctSet) (Nat.max 8 ctSet.card))

/-- Claim C4 (amended): the verifier's overlap score equals the number of
chunk-token **occurrences** that lie in the claim token set — repeated chunk
tokens each count — divided by `max(8, |claim_token_set|)` and clamped to 1
(with score 0 when either token collection is empty); tokenization is as the
claim describes it. -/
theorem overlapScore_eq_occurrence (claim chunk : String) :
    overlapScore claim chunk = specOccurrenceOverlap claim chunk := by
  unfold overlapScore specOccurrenceOverlap
  simp only [List.card_toFinset, List.countP_eq_length_filter, List.mem_toFinset,
    List.mem_dedup]

/-! ## Claim C8 — JSON extraction in `safeJsonParse` -/

/-- Claim C8, counterexample: on `x {"a":1} y }` (braces shown escaped in the
source text), the whole trimmed text is not valid JSON and the first balanced
`{...}` substring is `{"a":1}`, which parses — yet `safeJsonParse` raises,
because it slices from the first `{` to the **last** `}` with no balance
check and feeds the unparsable `{"a":1} y }` to `JSON.parse`. -/
theorem safeJsonParse_cex :
    jsonParse (strTrim "x \x7b\"a\":1\x7d y \x7d") = Option.none ∧
    firstBalanced "x \x7b\"a\":1\x7d y \x7d" = some "\x7b\"a\":1\x7d" ∧
    jsonParse "\x7b\"a\":1\x7d" = some (JsonVal.obj [("a", JsonVal.num "1")]) ∧
    safeJsonParse "x \x7b\"a\":1\x7d y \x7d" = Except.error ParseErr.syntaxErr := by
  exact ⟨rfl, rfl, rfl, rfl⟩

/-- Claim C8 (amended): when the whole trimmed text is not valid JSON, the
parser extracts the substring from the first `{` or `[` (whichever occurs
first) through the last `}` or `]` — with no balance check — and parses that;
it succeeds exactly when the trimmed text parses or that bracket slice exists
and parses, and raises in every other case (no opening bracket, last closing
bracket not after the first opening one, or unparsable slice). -/
theorem safeJsonParse_spec (text : String) (v : JsonVal) :
    safeJsonParse text = Except.ok v ↔
      (jsonParse (strTrim text) = some v ∨
        (jsonParse (strTrim text) = Option.none ∧
          ∃ u, bracketSlice (strTrim text) = Except.ok u ∧ jsonParse u = some v)) := by
  unfold safeJsonParse
  cases h1 : jsonParse (strTrim text) with
  | some w => simp [h1]
  | none =>
    cases h2 : bracketSlice (strTrim text) with
    | error e => simp [h1, h2]
    | ok u =>
      cases h3 : jsonParse u with
      | some w => simp [h1, h2, h3]
      | none => simp [h1, h2, h3]

/-- Claim C8, witness: a concrete wrapped response whose bracket slice
parses. -/
theorem safeJsonParse_spec_witness :
    safeJsonParse "reply: [1] ok" = Except.ok (JsonVal.arr [JsonVal.num "1"]) :=
  (safeJsonParse_spec "reply: [1] ok" (JsonVal.arr [JsonVal.num "1"])).mpr
    (Or.inr ⟨rfl, "[1]", rfl, rfl⟩)

/-! ## Claim C9 — artifact cache -/

/-- Claim C9, counterexample (to the key-derivation clause): the code
normalization *trims* the question first, which the claim's list of
normalization steps (lower-case, collapse whitespace runs, truncate to 300)
does not; at the question `" a"` the two disagree, so the cache key is not
derived from the question normalized as claimed. -/
theorem artifactKey_cex :
    normalizeQuestion " a" = "a" ∧
    specNormalizeQuestion " a" = " a" ∧
    artifactKey Mode.normal " a" ≠ "artifact:v1:normal:" ++ specNormalizeQuestion " a" := by
  exact ⟨by decide, by decide, by decide⟩

/-! ## Claim C2 — domain-diverse URL selection -/

theorem selectUrlsAux_sub (domainOf : String → Option String) (mx : Nat) :
    ∀ (results : List SearchResult) (seen : List String) (acc : List SelectedUrl)
      (s : SelectedUrl), s ∈ selectUrlsAux domainOf mx results seen acc →
      s ∈ acc ∨ ∃ r ∈ results, s.url = r.link ∧ 30 ≤ r.snippet.length ∧
        ∃ d, domainOf r.link = some d := by
  intro results
  induction results with
  | nil =>
    intro seen acc s hs
    simp only [selectUrlsAux, List.mem_reverse] at hs
    exact Or.inl hs
  | cons r rest ih =>
    intro seen acc s hs
    simp only [selectUrlsAux] at hs
    split at hs
    · rcases ih _ _ s hs with h | ⟨x, hx, hrest⟩
      · exact Or.inl h
      · exact Or.inr ⟨x, List.mem_cons_of_mem r hx, hrest⟩
    · rename_i d hdom
      split_ifs at hs with h1 h2 h3
      · rcases ih _ _ s hs with h | ⟨x, hx, hrest⟩
        · exact Or.inl h
        · exact Or.inr ⟨x, List.mem_cons_of_mem r hx, hrest⟩
      · rcases ih _ _ s hs with h | ⟨x, hx, hrest⟩
        · exact Or.inl h
        · exact Or.inr ⟨x, List.mem_cons_of_mem r hx, hrest⟩
      · rw [List.mem_reverse, List.mem_cons] at hs
        rcases hs with hs | hs
        · exact Or.inr ⟨r, List.mem_cons_self r rest, by rw [hs], by omega, d, hdom⟩
        · exact Or.inl hs
      · rcases ih _ _ s hs with h | ⟨x, hx, hrest⟩
        · rw [List.mem_cons] at h
          rcases h with h | h
          · exact Or.inr ⟨r, List.mem_cons_self r rest, by rw [h], by omega, d, hdom⟩
          · exact Or.inl h
        · exact Or.inr ⟨x, List.mem_cons_of_mem r hx, hrest⟩

theorem selectUrlsAux_nodup_len (domainOf : String → Option String) (mx : Nat) :
    ∀ (results : List SearchResult) (seen : List String) (acc : List SelectedUrl),
      (∀ s ∈ acc, ∃ d, domainOf s.url = some d ∧ d ∈ seen) →
      (acc.map fun s => domainOf s.url).Nodup →
      acc.length < max mx 1 →
      ((selectUrlsAux domainOf mx results seen acc).map fun s => domainOf s.url).Nodup ∧
      (selectUrlsAux domainOf mx results seen acc).length ≤ max mx 1 := by
  intro results
  induction results with
  | nil =>
    intro seen acc hacc hnd hlen
    simp only [selectUrlsAux, List.map_reverse, List.nodup_reverse,
      List.length_reverse]
    exact ⟨hnd, Nat.le_of_lt hlen⟩
  | cons r rest ih =>
    intro seen acc hacc hnd hlen
    simp only [selectUrlsAux]
    split
    · exact ih seen acc hacc hnd hlen
    · rename_i d hdom
      split_ifs with h1 h2 h3
      · exact ih seen acc hacc hnd hlen
      · exact ih seen acc hacc hnd hlen
      · have hfresh : some d ∉ acc.map fun s => domainOf s.url := by
          intro hmem
          rcases List.mem_map.mp hmem with ⟨s, hs, hds⟩
          rcases hacc s hs with ⟨d2, hd2, hd2seen⟩
          rw [hd2] at hds
          exact h1 (by injection hds with h; rw [h] at hd2seen; exact hd2seen)
        constructor
        · simp only [List.map_reverse, List.nodup_reverse, List.map_cons,
            List.nodup_cons]
          exact ⟨by simpa [hdom] using hfresh, hnd⟩
        · simp only [List.length_reverse, List.length_cons]
          omega
      · have hfresh : some d ∉ acc.map fun s => domainOf s.url := by
          intro hmem
          rcases List.mem_map.mp hmem with ⟨s, hs, hds⟩
          rcases hacc s hs with ⟨d2, hd2, hd2seen⟩
          rw [hd2] at hds
          exact h1 (by injection hds with h; rw [h] at hd2seen; exact hd2seen)
        have hnd2 : (((⟨r.link,
            "Top-ranked unique domain with informative snippet."⟩ : SelectedUrl)
            :: acc).map fun s => domainOf s.url).Nodup := by
          simp only [List.map_cons, List.nodup_cons]
          exact ⟨by simpa [hdom] using hfresh, hnd⟩
        refine ih (d :: seen) _ ?_ hnd2 ?_
        · intro s hs
          rw [List.mem_cons] at hs
          rcases hs with hs | hs
          · exact ⟨d, by rw [hs]; exact hdom, List.mem_cons_self d seen⟩
          · rcases hacc s hs with ⟨d2, hd2, hd2seen⟩
            exact ⟨d2, hd2, List.mem_cons_of_mem d hd2seen⟩
        · simp only [List.length_cons] at h3 ⊢
          omega

/-- Claim C2, counterexample (to the per-intent cap): with
`perIntentUrls = 0` the selection loop checks the cap only *after* a push, so
one URL is selected even though the claim allows at most zero. -/
theorem selectUrls_cap_cex :
    selectUrls domainOfModel
      [⟨"t", "https://example.com/a", "This is a sufficiently long informative snippet."⟩]
      0 =
      [⟨"https://example.com/a", "Top-ranked unique domain with informative snippet."⟩] ∧
    ¬ (selectUrls domainOfModel
      [⟨"t", "https://example.com/a", "This is a sufficiently long informative snippet."⟩]
      0).length ≤ 0 := by
  exact ⟨by decide, by decide⟩

/-- Claim C2 (amended): within one selection round, no two selected URLs share
a normalized domain (the round even guarantees each selected URL has a parsed
domain), every selected URL comes from a search result whose snippet has
length at least 30, and at most `max(perIntentUrls, 1)` URLs are selected —
which is at most `perIntentUrls` whenever `perIntentUrls ≥ 1` (the cap is
checked only after a push, so `perIntentUrls = 0` still selects one URL when
any result qualifies). -/
theorem selectUrls_spec (domainOf : String → Option String)
    (results : List SearchResult) (mx : Nat) :
    ((selectUrls domainOf results mx).map fun s => domainOf s.url).Nodup ∧
    (∀ s ∈ selectUrls domainOf results mx,
      ∃ r ∈ results, s.url = r.link ∧ 30 ≤ r.snippet.length ∧
        ∃ d, domainOf r.link = some d) ∧
    (selectUrls domainOf results mx).length ≤ max mx 1 ∧
    (1 ≤ mx → (selectUrls domainOf results mx).length ≤ mx) := by
  have h := selectUrlsAux_nodup_len domainOf mx results [] []
    (by intro s hs; exact absurd hs (List.not_mem_nil s))
    (by simp)
    (by
      simp only [List.length_nil]
      exact Nat.lt_of_lt_of_le Nat.zero_lt_one (Nat.le_max_right mx 1))
  refine ⟨h.1, ?_, h.2, ?_⟩
  · intro s hs
    rcases selectUrlsAux_sub domainOf mx results [] [] s hs with hmem | hgood
    · exact absurd hmem (List.not_mem_nil s)
    · exact hgood
  · intro hmx
    have h2 := h.2
    have hmax : max mx 1 = mx := by omega
    rw [hmax] at h2
    exact h2

/-- Claim C2, witness: a concrete round with two results on the same domain
and one on another — the duplicate domain is skipped, both remaining URLs are
selected, and every guarantee of `selectUrls_spec` is discharged at this
input. -/
theorem selectUrls_spec_witness :
    ((selectUrls domainOfModel
      [⟨"t1", "https://example.com/a", "This is a sufficiently long informative snippet."⟩,
       ⟨"t2", "https://www.example.com/b", "Another really long informative snippet here ok."⟩,
       ⟨"t3", "https://other.org/c", "Another really long informative snippet here ok."⟩]
      2).map fun s => domainOfModel s.url).Nodup ∧
    (selectUrls domainOfModel
      [⟨"t1", "https://example.com/a", "This is a sufficiently long informative snippet."⟩,
       ⟨"t2", "https://www.example.com/b", "Another really long informative snippet here ok."⟩,
       ⟨"t3", "https://other.org/c", "Another really long informative snippet here ok."⟩]
      2).length ≤ 2 :=
  ⟨(selectUrls_spec domainOfModel _ 2).1,
   (selectUrls_spec domainOfModel _ 2).2.2.2 (by decide)⟩

/-! ## Claim C7 — the widened second retrieval pass -/

theorem mergeGo_eq (cap : Nat) :
    ∀ (l : List EvidenceSource) (seen : List String) (out : List EvidenceSource),
      out.length < cap →
      mergeGo cap l seen out =
        out.reverse ++ (dedupeByHashAux seen l).take (cap - out.length) := by
  intro l
  induction l with
  | nil => intro seen out hlen; simp [mergeGo, dedupeByHashAux]
  | cons x rest ih =>
    intro seen out hlen
    simp only [mergeGo, dedupeByHashAux]
    by_cases hx : x.contentHash ∈ seen
    · rw [if_pos hx, if_pos hx]
      exact ih seen out hlen
    · rw [if_neg hx, if_neg hx]
      by_cases hcap : cap ≤ (x :: out).length
      · rw [if_pos hcap]
        have h1 : cap - out.length = 1 := by
          simp only [List.length_cons] at hcap
          omega
        rw [h1]
        simp
      · rw [if_neg hcap]
        rw [ih (x.contentHash :: seen) (x :: out)
          (by simp only [List.length_cons] at hcap ⊢; omega)]
        have h1 : cap - out.length = (cap - (out.length + 1)) + 1 := by
          simp only [List.length_cons] at hcap
          omega
        rw [h1]
        simp

/-- The loop of `mergeSourcesByHash` computes exactly the content-hash union:
first list first, first occurrence of each hash kept, capped (for any positive
cap — the caller always passes 6). -/
theorem mergeSourcesByHash_eq_union (a b : List EvidenceSource) (cap : Nat)
    (hcap : 1 ≤ cap) :
    mergeSourcesByHash a b cap = researchSources (a ++ b) cap := by
  unfold mergeSourcesByHash researchSources dedupeByHash
  rw [mergeGo_eq cap (a ++ b) [] [] (by simpa using hcap)]
  simp

/-- Claim C7: in verification (reliability) mode, when the first pass returns
fewer than 3 sources, exactly one second retrieval runs, its intent list is
the first-pass intents plus the two fixed variants, and the final sources are
the content-hash union of the two passes (first pass first, first occurrence
of each hash kept) capped at 6. -/
theorem chat_widened_second_pass (question : String) (intents : List String)
    (research : List String → ResearchRes)
    (hfew : (research intents).sources.length < 3) :
    orchestrateSources Mode.reliability question intents research =
      ([intents,
        intents ++ [question ++ " definition", question ++ " authoritative source"]],
       (research intents).trace ++
         (research (intents ++ [question ++ " definition",
           question ++ " authoritative source"])).trace,
       researchSources ((research intents).sources ++
         (research (intents ++ [question ++ " definition",
           question ++ " authoritative source"])).sources) 6) := by
  unfold orchestrateSources
  rw [if_pos ⟨rfl, by simpa [requiredSources] using hfew⟩]
  dsimp only
  rw [mergeSourcesByHash_eq_union _ _ 6 (by omega)]

/-- Claim C7, witness: a concrete run whose first pass yields no sources. -/
theorem chat_widened_second_pass_witness :
    orchestrateSources Mode.reliability "q" ["a"] (fun _ => ⟨[], []⟩) =
      ([["a"], ["a", "q definition", "q authoritative source"]], [], []) :=
  (chat_widened_second_pass "q" ["a"] (fun _ => ⟨[], []⟩) (by decide)).trans (by decide)

/-! ## Claims C5 and C10 — claim scores and labels -/

theorem overlapScore_nonneg (claim chunk : String) : 0 ≤ overlapScore claim chunk := by
  simp only [overlapScore]
  split
  · exact le_refl 0
  · refine le_min (by norm_num) ?_
    rw [Rat.mkRat_eq_div]
    positivity

theorem overlapScore_le_one (claim chunk : String) : overlapScore claim chunk ≤ 1 := by
  simp only [overlapScore]
  split
  · norm_num
  · exact min_le_left _ _

theorem foldl_best_bounds (claim : String) :
    ∀ (l : List String) (b : String × ℚ), 0 ≤ b.2 → b.2 ≤ 1 →
      0 ≤ (l.foldl (fun best c =>
        if best.2 < overlapScore claim c then (strTake c 280, overlapScore claim c)
        else best) b).2 ∧
      (l.foldl (fun best c =>
        if best.2 < overlapScore claim c then (strTake c 280, overlapScore claim c)
        else best) b).2 ≤ 1 := by
  intro l
  induction l with
  | nil => intro b h0 h1; exact ⟨h0, h1⟩
  | cons c cs ih =>
    intro b h0 h1
    rw [List.foldl_cons]
    by_cases hlt : b.2 < overlapScore claim c
    · rw [if_pos hlt]
      exact ih _ (overlapScore_nonneg claim c) (overlapScore_le_one claim c)
    · rw [if_neg hlt]
      exact ih b h0 h1

theorem bestChunkFor_bounds (claim : String) (chunks : List String) :
    0 ≤ (bestChunkFor claim chunks).2 ∧ (bestChunkFor claim chunks).2 ≤ 1 :=
  foldl_best_bounds claim chunks ("", 0) (le_refl 0) (by norm_num)

theorem claimMaxScore_bounds (claim : String) (srcs : List (String × List String)) :
    0 ≤ claimMaxScore claim srcs ∧ claimMaxScore claim srcs ≤ 1 := by
  unfold claimMaxScore
  cases hh : ((claimSorted claim srcs).take 3).head? with
  | none => exact ⟨le_refl 0, by norm_num⟩
  | some e =>
    show 0 ≤ e.score ∧ e.score ≤ 1
    have he1 : e ∈ (claimSorted claim srcs).take 3 := by
      cases h3 : (claimSorted claim srcs).take 3 with
      | nil => rw [h3] at hh; exact absurd hh (by simp)
      | cons y ys =>
        rw [h3] at hh
        simp only [List.head?_cons, Option.some.injEq] at hh
        subst hh
        exact List.mem_cons_self y ys
    have he2 : e ∈ claimSorted claim srcs := List.take_subset 3 _ he1
    have he3 : e ∈ claimEvidenceScored claim srcs := by
      unfold claimSorted at he2
      exact (List.perm_insertionSort _ _).mem_iff.mp he2
    unfold claimEvidenceScored at he3
    rcases List.mem_filterMap.mp he3 with ⟨s, _, heq⟩
    by_cases hpos : 0 < (bestChunkFor claim s.2).2
    · rw [if_pos hpos] at heq
      have hb := bestChunkFor_bounds claim s.2
      cases heq
      exact ⟨hb.1, hb.2⟩
    · rw [if_neg hpos] at heq
      exact absurd heq (by simp)

theorem round2_bounds (q : ℚ) (h0 : 0 ≤ q) (h1 : q ≤ 1) :
    0 ≤ round2 q ∧ round2 q ≤ 1 := by
  rw [round2_eq_round_div]
  have hfl : round (q * 100) = ⌊q * 100 + 1/2⌋ := round_eq (q * 100)
  have hnn : (0 : ℤ) ≤ round (q * 100) := by
    rw [hfl]
    exact Int.floor_nonneg.mpr (by linarith)
  have hub : round (q * 100) ≤ 100 := by
    rw [hfl]
    have : (q * 100 + 1/2 : ℚ) < 101 := by linarith
    have hlt : ⌊(q * 100 + 1/2 : ℚ)⌋ < 101 := Int.floor_lt.mpr (by exact_mod_cast this)
    omega
  constructor
  · apply div_nonneg _ (by norm_num)
    exact_mod_cast hnn
  · rw [div_le_one (by norm_num)]
    exact_mod_cast hub

theorem labelFromScore_bands (s : ℚ) :
    (mkRat 3 4 ≤ s → labelFromScore s = ClaimSupportLabel.supported) ∧
    (mkRat 9 20 ≤ s ∧ s < mkRat 3 4 → labelFromScore s = ClaimSupportLabel.weak) ∧
    (s < mkRat 9 20 → labelFromScore s = ClaimSupportLabel.unsupported) := by
  unfold labelFromScore
  refine ⟨fun h => ?_, fun h => ?_, fun h => ?_⟩
  · rw [if_pos h]
  · rw [if_neg (not_le.mpr h.2), if_pos h.1]
  · rw [if_neg (not_le.mpr (lt_trans h (by decide))), if_neg (not_le.mpr h)]

/-- Claim C5 (amended): every record returned by `verifyClaims` has its
(reported, rounded) score in `[0, 1]`, and its label is computed — with
inclusive lower bounds `0.75` and `0.45` — from the **unrounded** maximum
per-source best overlap of its claim, not from the reported score. -/
theorem verifyClaims_spec (claims : List String) (sources : List EvidenceSource)
    (r : ClaimRecord) (hr : r ∈ verifyClaims claims sources) :
    0 ≤ r.score ∧ r.score ≤ 1 ∧
    ∃ c ∈ claims,
      r = scoreClaim c (sourceChunksOf sources) ∧
      r.label = labelFromScore (claimMaxScore c (sourceChunksOf sources)) ∧
      (mkRat 3 4 ≤ claimMaxScore c (sourceChunksOf sources) →
        r.label = ClaimSupportLabel.supported) ∧
      (mkRat 9 20 ≤ claimMaxScore c (sourceChunksOf sources) ∧
          claimMaxScore c (sourceChunksOf sources) < mkRat 3 4 →
        r.label = ClaimSupportLabel.weak) ∧
      (claimMaxScore c (sourceChunksOf sources) < mkRat 9 20 →
        r.label = ClaimSupportLabel.unsupported) := by
  unfold verifyClaims at hr
  rcases List.mem_map.mp hr with ⟨c, hc, rfl⟩
  have hm := claimMaxScore_bounds c (sourceChunksOf sources)
  have hs := round2_bounds _ hm.1 hm.2
  have hb := labelFromScore_bands (claimMaxScore c (sourceChunksOf sources))
  exact ⟨hs.1, hs.2, c, hc, rfl, rfl, hb.1, hb.2.1, hb.2.2⟩

/-- Concrete claim with 49 distinct tokens and a source text containing 22 of
them, realizing the unrounded score `22/49 ≈ 0.44898`. -/
def cexToken (i : Nat) : String := "tok" ++ toString i

def joinSpace : List String → String
  | [] => ""
  | [s] => s
  | s :: rest => s ++ " " ++ joinSpace rest

def cexClaim : String := joinSpace ((List.range 49).map cexToken)

def cexText : String := joinSpace ((List.range 22).map cexToken)

def cexSource : EvidenceSource :=
  ⟨"https://example.com/page", "Example", "example.com", "ex", cexText, "hash1"⟩

/-- Claim C5, counterexample: on the concrete claim/source pair above, the
unrounded maximum is `22/49 < 0.45`, so the label is `unsupported` — but the
reported score is rounded to `0.45`, so `verifyClaims` returns a record with
score exactly `0.45` and label `unsupported`, contradicting the claim that
score `0.45` yields `weak`. -/
theorem verifyClaims_rounding_cex :
    (verifyClaims [cexClaim] [cexSource]).map (fun r => (r.score, r.label)) =
      [(mkRat 9 20, ClaimSupportLabel.unsupported)] := by decide

/-- Claim C5, witness: a concrete claim and source, with every guarantee of
`verifyClaims_spec` discharged there. -/
theorem verifyClaims_spec_witness :
    0 ≤ (scoreClaim "alpha beta gamma delta" (sourceChunksOf
      [⟨"https://example.com/w", "Title", "example.com", "ex",
        "alpha beta gamma delta words here", "h1"⟩])).score ∧
    (scoreClaim "alpha beta gamma delta" (sourceChunksOf
      [⟨"https://example.com/w", "Title", "example.com", "ex",
        "alpha beta gamma delta words here", "h1"⟩])).score ≤ 1 ∧
    ∃ c ∈ ["alpha beta gamma delta"],
      scoreClaim "alpha beta gamma delta" (sourceChunksOf
        [⟨"https://example.com/w", "Title", "example.com", "ex",
          "alpha beta gamma delta words here", "h1"⟩]) =
        scoreClaim c (sourceChunksOf
          [⟨"https://example.com/w", "Title", "example.com", "ex",
            "alpha beta gamma delta words here", "h1"⟩]) ∧
      (scoreClaim "alpha beta gamma delta" (sourceChunksOf
        [⟨"https://example.com/w", "Title", "example.com", "ex",
          "alpha beta gamma delta words here", "h1"⟩])).label =
        labelFromScore (claimMaxScore c (sourceChunksOf
          [⟨"https://example.com/w", "Title", "example.com", "ex",
            "alpha beta gamma delta words here", "h1"⟩])) ∧
      (mkRat 3 4 ≤ claimMaxScore c (sourceChunksOf
          [⟨"https://example.com/w", "Title", "example.com", "ex",
            "alpha beta gamma delta words here", "h1"⟩]) →
        (scoreClaim "alpha beta gamma delta" (sourceChunksOf
          [⟨"https://example.com/w", "Title", "example.com", "ex",
            "alpha beta gamma delta words here", "h1"⟩])).label =
          ClaimSupportLabel.supported) ∧
      (mkRat 9 20 ≤ claimMaxScore c (sourceChunksOf
          [⟨"https://example.com/w", "Title", "example.com", "ex",
            "alpha beta gamma delta words here", "h1"⟩]) ∧
          claimMaxScore c (sourceChunksOf
            [⟨"https://example.com/w", "Title", "example.com", "ex",
              "alpha beta gamma delta words here", "h1"⟩]) < mkRat 3 4 →
        (scoreClaim "alpha beta gamma delta" (sourceChunksOf
          [⟨"https://example.com/w", "Title", "example.com", "ex",
            "alpha beta gamma delta words here", "h1"⟩])).label =
          ClaimSupportLabel.weak) ∧
      (claimMaxScore c (sourceChunksOf
          [⟨"https://example.com/w", "Title", "example.com", "ex",
            "alpha beta gamma delta words here", "h1"⟩]) < mkRat 9 20 →
        (scoreClaim "alpha beta gamma delta" (sourceChunksOf
          [⟨"https://example.com/w", "Title", "example.com", "ex",
            "alpha beta gamma delta words here", "h1"⟩])).label =
          ClaimSupportLabel.unsupported) :=
  verifyClaims_spec ["alpha beta gamma delta"]
    [⟨"https://example.com/w", "Title", "example.com", "ex",
      "alpha beta gamma delta words here", "h1"⟩]
    _ (List.mem_singleton.mpr rfl)

/-- Claim C10: the reported score of every record is the two-decimal rounding
of the unrounded per-claim maximum, while the label is computed from the
unrounded maximum itself — and there exists a concrete input on which the
reported score and the reported label fall in different label bands. -/
theorem verifyClaims_rounded_score_unrounded_label :
    (∀ (claims : List String) (sources : List EvidenceSource) (r : ClaimRecord),
      r ∈ verifyClaims claims sources →
      ∃ c ∈ claims,
        r.score = round2 (claimMaxScore c (sourceChunksOf sources)) ∧
        r.label = labelFromScore (claimMaxScore c (sourceChunksOf sources))) ∧
    ∃ r ∈ verifyClaims [cexClaim] [cexSource],
      r.score = mkRat 9 20 ∧ r.label = ClaimSupportLabel.unsupported ∧
      labelFromScore r.score = ClaimSupportLabel.weak := by
  constructor
  · intro claims sources r hr
    unfold verifyClaims at hr
    rcases List.mem_map.mp hr with ⟨c, hc, rfl⟩
    exact ⟨c, hc, rfl, rfl⟩
  · exact ⟨scoreClaim cexClaim (sourceChunksOf [cexSource]),
      List.mem_singleton.mpr rfl, by decide, by decide, by decide⟩

/-- Claim C10, witness: the general part instantiated at a concrete record. -/
theorem verifyClaims_rounded_score_witness :
    ∃ c ∈ ["alpha beta gamma delta"],
      (scoreClaim "alpha beta gamma delta" (sourceChunksOf
        [⟨"https://example.com/w", "Title", "example.com", "ex",
          "alpha beta gamma delta words here", "h1"⟩])).score =
        round2 (claimMaxScore c (sourceChunksOf
          [⟨"https://example.com/w", "Title", "example.com", "ex",
            "alpha beta gamma delta words here", "h1"⟩])) ∧
      (scoreClaim "alpha beta gamma delta" (sourceChunksOf
        [⟨"https://example.com/w", "Title", "example.com", "ex",
          "alpha beta gamma delta words here", "h1"⟩])).label =
        labelFromScore (claimMaxScore c (sourceChunksOf
          [⟨"https://example.com/w", "Title", "example.com", "ex",
            "alpha beta gamma delta words here", "h1"⟩])) :=
  verifyClaims_rounded_score_unrounded_label.1 ["alpha beta gamma delta"]
    [⟨"https://example.com/w", "Title", "example.com", "ex",
      "alpha beta gamma delta words here", "h1"⟩]
    _ (List.mem_singleton.mpr rfl)

/-! ## Claim C1 — deduplication and cap of `research` -/

theorem dedupeByHashAux_sub :
    ∀ (seen : List String) (l : List EvidenceSource) (e : EvidenceSource),
      e ∈ dedupeByHashAux seen l → e ∈ l ∧ e.contentHash ∉ seen := by
  intro seen l
  induction l generalizing seen with
  | nil => intro e he; exact absurd he (List.not_mem_nil e)
  | cons x rest ih =>
    intro e he
    simp only [dedupeByHashAux] at he
    by_cases hx : x.contentHash ∈ seen
    · rw [if_pos hx] at he
      rcases ih seen e he with ⟨h1, h2⟩
      exact ⟨List.mem_cons_of_mem x h1, h2⟩
    · rw [if_neg hx] at he
      rw [List.mem_cons] at he
      rcases he with rfl | he
      · exact ⟨List.mem_cons_self e rest, hx⟩
      · rcases ih (x.contentHash :: seen) e he with ⟨h1, h2⟩
        exact ⟨List.mem_cons_of_mem x h1, fun hc => h2 (List.mem_cons_of_mem _ hc)⟩

theorem dedupeByHashAux_nodup :
    ∀ (seen : List String) (l : List EvidenceSource),
      ((dedupeByHashAux seen l).map EvidenceSource.contentHash).Nodup := by
  intro seen l
  induction l generalizing seen with
  | nil => simp [dedupeByHashAux]
  | cons x rest ih =>
    simp only [dedupeByHashAux]
    by_cases hx : x.contentHash ∈ seen
    · rw [if_pos hx]; exact ih seen
    · rw [if_neg hx]
      simp only [List.map_cons, List.nodup_cons]
      refine ⟨?_, ih _⟩
      intro hmem
      rcases List.mem_map.mp hmem with ⟨y, hy, hyh⟩
      rcases dedupeByHashAux_sub _ _ y hy with ⟨_, hns⟩
      exact hns (by rw [hyh]; exact List.mem_cons_self _ _)

theorem dedupeByHashAux_first :
    ∀ (seen : List String) (l : List EvidenceSource) (e : EvidenceSource),
      e ∈ dedupeByHashAux seen l →
      (l.filter fun x => x.contentHash = e.contentHash).head? = some e := by
  intro seen l
  induction l generalizing seen with
  | nil => intro e he; exact absurd he (List.not_mem_nil e)
  | cons x rest ih =>
    intro e he
    simp only [dedupeByHashAux] at he
    by_cases hx : x.contentHash ∈ seen
    · rw [if_pos hx] at he
      have hne : ¬ (x.contentHash = e.contentHash) := by
        intro heq
        rcases dedupeByHashAux_sub seen rest e he with ⟨_, hns⟩
        exact hns (heq ▸ hx)
      rw [List.filter_cons, if_neg (by simp [hne])]
      exact ih seen e he
    · rw [if_neg hx] at he
      rw [List.mem_cons] at he
      rcases he with rfl | he
      · rw [List.filter_cons, if_pos (by simp)]
        simp
      · have hne : ¬ (x.contentHash = e.contentHash) := by
          intro heq
          rcases dedupeByHashAux_sub _ _ e he with ⟨_, hns⟩
          exact hns (heq ▸ List.mem_cons_self _ _)
        rw [List.filter_cons, if_neg (by simp [hne])]
        exact ih (x.contentHash :: seen) e he

/-- Claim C1: for every environment, intent list and options record, and
every reachable state of the retrieval worker pool, the sources returned by
`research` (the dedup-and-truncate of the collected evidence) contain no two
elements with the same content hash, number at most `maxSources`, and each is
the first element of the collected evidence carrying its hash (first
occurrence in discovery order kept, later ones dropped). -/
theorem research_sources_spec (env : RetrieverEnv) (intents : List String)
    (opts : ResearchOptions) (s : RState)
    (_hreach : ResearchReachable env intents opts s) :
    ((researchSources s.sources opts.maxSources).map
      EvidenceSource.contentHash).Nodup ∧
    (researchSources s.sources opts.maxSources).length ≤ opts.maxSources ∧
    ∀ e ∈ researchSources s.sources opts.maxSources,
      (s.sources.filter fun x => x.contentHash = e.contentHash).head? = some e := by
  unfold researchSources dedupeByHash
  refine ⟨?_, List.length_take_le _ _, ?_⟩
  · exact List.Nodup.sublist ((List.take_sublist _ _).map _)
      (dedupeByHashAux_nodup [] s.sources)
  · intro e he
    exact dedupeByHashAux_first [] s.sources e (List.take_subset _ _ he)

def envStub : RetrieverEnv :=
  ⟨fun _ _ => [], fun u => ⟨u, 0, "", ""⟩, fun _ _ => none, fun _ => none⟩

def optsZero : ResearchOptions := ⟨0, 0, 0, 0, 0⟩

/-- Claim C1, witness: the empty run (no intents, zero budget) is reachable
by the empty schedule, and the guarantees hold for its returned sources. -/
theorem research_sources_spec_witness :
    ((researchSources (initRState (phaseA envStub [] optsZero).1).sources
        optsZero.maxSources).map EvidenceSource.contentHash).Nodup ∧
    (researchSources (initRState (phaseA envStub [] optsZero).1).sources
        optsZero.maxSources).length ≤ optsZero.maxSources ∧
    ∀ e ∈ researchSources (initRState (phaseA envStub [] optsZero).1).sources
        optsZero.maxSources,
      ((initRState (phaseA envStub [] optsZero).1).sources.filter
        fun x => x.contentHash = e.contentHash).head? = some e :=
  research_sources_spec envStub [] optsZero _ Relation.ReflTransGen.refl

/-! ## Claim C6 — stop conditions and in-flight tasks -/

/-- Claim C6 (amended): (1) the only transition that changes the shared task
index is a worker taking a new task, and it requires the clock to be at or
before the deadline and the sufficiency predicate to be false — once either
stop condition holds, no worker takes a new task; (2) every transition keeps
all already-collected evidence; (3) an in-flight fetch may always complete,
and when it completes at or before the deadline its evidence is appended even
if sufficiency fired meanwhile; (4) but when it completes after the deadline
the mid-task check discards the page, contributing no evidence. -/
theorem worker_stop_discipline :
    (∀ (env : RetrieverEnv) (opts : ResearchOptions) (tasks : List SelectedUrl)
      (s s2 : RState), RStep env opts tasks s s2 → s.idx ≠ s2.idx →
      s2.idx = s.idx + 1 ∧ s.time ≤ opts.budgetMs ∧
        ¬ enoughEvidence opts s.sources) ∧
    (∀ (env : RetrieverEnv) (opts : ResearchOptions) (tasks : List SelectedUrl)
      (s s2 : RState), RStep env opts tasks s s2 → ∀ e ∈ s.sources, e ∈ s2.sources) ∧
    (∀ (env : RetrieverEnv) (opts : ResearchOptions) (tasks : List SelectedUrl)
      (s : RState) (u : String), u ∈ s.inFlight → s.time ≤ opts.budgetMs →
      RStep env opts tasks s ⟨s.time, s.idx, s.inFlight.erase u,
        s.sources ++ (processTask env u).toList,
        s.trace ++ [TraceEvent.fetch u (env.fetchHtml u).status]⟩) ∧
    (∀ (env : RetrieverEnv) (opts : ResearchOptions) (tasks : List SelectedUrl)
      (s : RState) (u : String), u ∈ s.inFlight → opts.budgetMs < s.time →
      RStep env opts tasks s ⟨s.time, s.idx, s.inFlight.erase u, s.sources,
        s.trace ++ [TraceEvent.fetch u (env.fetchHtml u).status]⟩) := by
  refine ⟨?_, ?_, ?_, ?_⟩
  · intro env opts tasks s s2 hstep hne
    cases hstep with
    | tick => exact absurd rfl hne
    | take h1 h2 h3 => exact ⟨rfl, h2, h3⟩
    | completeLate u h1 h2 => exact absurd rfl hne
    | completeOk u h1 h2 => exact absurd rfl hne
  · intro env opts tasks s s2 hstep e he
    cases hstep with
    | tick => exact he
    | take h1 h2 h3 => exact he
    | completeLate u h1 h2 => exact he
    | completeOk u h1 h2 => exact List.mem_append_left _ he
  · intro env opts tasks s u h1 h2
    exact RStep.completeOk s u h1 h2
  · intro env opts tasks s u h1 h2
    exact RStep.completeLate s u h1 h2

def goodText : String := String.mk (List.replicate 300 'a')

def envGood : RetrieverEnv :=
  ⟨fun _ _ => [], fun u => ⟨u, 200, "text/html", "<p>page</p>"⟩,
   fun _ _ => some ⟨"Title", goodText, "ex", "hash-good"⟩, domainOfModel⟩

def opts5 : ResearchOptions := ⟨5, 2, 3, 6, 2⟩

def tasks1 : List SelectedUrl :=
  [⟨"https://example.com/a", "Top-ranked unique domain with informative snippet."⟩]

/-- Claim C6, counterexample: a feasible schedule in which the single task is
taken at time 0 (before any stop condition), its fetch — whose page is good
and would yield evidence — completes at time 6, after the deadline 5, and the
run ends with no evidence at all: the evidence an in-flight task collects is
*not* kept when the deadline passes mid-task. -/
theorem worker_deadline_discard_cex :
    Relation.ReflTransGen (RStep envGood opts5 tasks1) (initRState [])
      ⟨6, 1, [], [], [TraceEvent.fetch "https://example.com/a" 200]⟩ ∧
    processTask envGood "https://example.com/a" ≠ none ∧
    researchSources (⟨6, 1, [], [],
      [TraceEvent.fetch "https://example.com/a" 200]⟩ : RState).sources
      opts5.maxSources = [] := by
  refine ⟨?_, by decide, rfl⟩
  have h0 : RStep envGood opts5 tasks1 (initRState [])
      ⟨0, 1, ["https://example.com/a"], [], []⟩ :=
    RStep.take (initRState []) (by decide) (by decide) (by decide)
  refine Relation.ReflTransGen.head h0 ?_
  refine Relation.ReflTransGen.head
    (RStep.tick ⟨0, 1, ["https://example.com/a"], [], []⟩) ?_
  refine Relation.ReflTransGen.head
    (RStep.tick ⟨1, 1, ["https://example.com/a"], [], []⟩) ?_
  refine Relation.ReflTransGen.head
    (RStep.tick ⟨2, 1, ["https://example.com/a"], [], []⟩) ?_
  refine Relation.ReflTransGen.head
    (RStep.tick ⟨3, 1, ["https://example.com/a"], [], []⟩) ?_
  refine Relation.ReflTransGen.head
    (RStep.tick ⟨4, 1, ["https://example.com/a"], [], []⟩) ?_
  refine Relation.ReflTransGen.head
    (RStep.tick ⟨5, 1, ["https://example.com/a"], [], []⟩) ?_
  exact Relation.ReflTransGen.single
    (RStep.completeLate ⟨6, 1, ["https://example.com/a"], [], []⟩
      "https://example.com/a" (by decide) (by decide))

/-- Claim C6, witness: part (1) of `worker_stop_discipline` discharged at a
concrete take transition. -/
theorem worker_stop_discipline_witness :
    (⟨0, 1, ["https://example.com/a"], [], []⟩ : RState).idx =
      (initRState []).idx + 1 ∧
    (initRState []).time ≤ opts5.budgetMs ∧
    ¬ enoughEvidence opts5 (initRState []).sources :=
  worker_stop_discipline.1 envGood opts5 tasks1 (initRState [])
    ⟨0, 1, ["https://example.com/a"], [], []⟩
    (RStep.take (initRState []) (by decide) (by decide) (by decide))
    (by decide)

/-! ## Claim C9 — the artifact cache, continued -/

theorem chatModel_miss (deps : ChatDeps) (mem : List (String × CacheEntry))
    (now : Nat) (mode : Mode) (q : String)
    (hmiss : cacheGetMem mem (artifactKey mode q) now = Option.none) :
    ∃ art : CachedArtifact, art.finalAnswer = (chatModel deps mem now mode q).1 ∧
      (chatModel deps mem now mode q).2.1 =
        cacheSetMem mem (artifactKey mode q) art (2 * 60 * 60) now := by
  simp only [chatModel, hmiss]
  exact ⟨_, rfl, rfl⟩

theorem cacheGetMem_after_set (mem : List (String × CacheEntry)) (key : String)
    (art : CachedArtifact) (ttl now now2 : Nat) (hlive : now2 ≤ now + ttl * 1000) :
    cacheGetMem (cacheSetMem mem key art ttl now) key now2 = some art := by
  unfold cacheGetMem cacheSetMem
  rw [List.find?_cons_of_pos _ (by simp)]
  dsimp only
  exact if_neg (by omega)

/-- Claim C9 (amended): after a run of `(mode, question)` that missed the
cache, submitting the identical pair again while the stored artifact is live
(within the 2-hour TTL) returns a byte-identical final answer straight from
the cache, with **zero** retrieval invocations (hence no search and no fetch);
the cache key is derived from the mode and the question normalized by
**trimming**, lower-casing, collapsing whitespace runs, and truncating to 300
characters. -/
theorem chat_second_call_cached (deps deps2 : ChatDeps)
    (mem : List (String × CacheEntry)) (now now2 : Nat) (mode : Mode) (q : String)
    (hmiss : cacheGetMem mem (artifactKey mode q) now = Option.none)
    (hlive : now2 ≤ now + 2 * 60 * 60 * 1000) :
    (chatModel deps2 (chatModel deps mem now mode q).2.1 now2 mode q).1 =
      (chatModel deps mem now mode q).1 ∧
    (chatModel deps2 (chatModel deps mem now mode q).2.1 now2 mode q).2.2 = [] ∧
    artifactKey mode q = "artifact:v1:" ++ modeStr mode ++ ":" ++
      strTake (String.mk (collapseWs (strLower (strTrim q)).data)) 300 := by
  obtain ⟨art, hart, hcache⟩ := chatModel_miss deps mem now mode q hmiss
  have hhit : cacheGetMem (chatModel deps mem now mode q).2.1
      (artifactKey mode q) now2 = some art := by
    rw [hcache]
    exact cacheGetMem_after_set mem _ art _ now now2 hlive
  have hsecond : chatModel deps2 (chatModel deps mem now mode q).2.1 now2 mode q =
      (art.finalAnswer, (chatModel deps mem now mode q).2.1, []) := by
    generalize (chatModel deps mem now mode q).2.1 = M at hhit ⊢
    simp only [chatModel, hhit]
  refine ⟨?_, ?_, rfl⟩
  · rw [hsecond]; exact hart
  · rw [hsecond]

def depsStub : ChatDeps :=
  ⟨Option.none, fun _ => ⟨[], []⟩, fun _ _ _ => "the answer", []⟩

/-- Claim C9, witness: a concrete first call on an empty cache followed by an
identical call one minute later. -/
theorem chat_second_call_cached_witness :
    (chatModel depsStub (chatModel depsStub [] 0 Mode.normal "hi").2.1
      60000 Mode.normal "hi").1 = (chatModel depsStub [] 0 Mode.normal "hi").1 ∧
    (chatModel depsStub (chatModel depsStub [] 0 Mode.normal "hi").2.1
      60000 Mode.normal "hi").2.2 = [] ∧
    artifactKey Mode.normal "hi" = "artifact:v1:" ++ modeStr Mode.normal ++ ":" ++
      strTake (String.mk (collapseWs (strLower (strTrim "hi")).data)) 300 :=
  chat_second_call_cached depsStub depsStub [] 0 60000 Mode.normal "hi" rfl (by omega)
example : overlapScore "word something" "word word word" = mkRat 3 8 := by decide
example : labelFromScore (mkRat 9 20) = ClaimSupportLabel.weak := by decide
example : round2 (mkRat 22 49) = mkRat 9 20 := by decide
example : chunkText "para one text\n\npara two text" 900 =
    ["para one text\n\npara two text"] := by decide
example : chunkText "aaaa\n\nbbbb" 6 = ["aaaa", "bbbb"] := by decide

end BetterPerplexity
